import Mathlib

/-!
# A shallow embedding of the dna-backup chunk matcher (`repo.go`, `sketch/sketch.go`)

This file models the core of the dna-backup deduplicating backup engine:
the stream matcher (`matchStream`), the temp-chunk encoders
(`encodeTempChunk`, `encodeTempChunks`), delta encoding
(`tryDeltaEncodeChunk`, `findSimilarChunk`), the hash indices
(`hashChunk`, `loadHashes`, `SketchMap.Set`), the storage worker
(`storageWorker`), the sketcher (`sketch.SketchChunk`) and the restore
path (`restoreStream`).

Byte streams are `List ℕ`.  The external rabinkarp64 rolling hash is a
parameter `hashFn : List ℕ → ℕ`: by the rolling-hash contract, rolling
one byte equals re-hashing the new window, so the hasher state in
`matchStream` is represented by hashing the window (the last `chunkSize`
bytes of the buffer) directly.  The sketcher invocation inside the
matcher is likewise a parameter `sketchFn` (instantiable by
`sketchChunk` below), and the Bsdiff differ/patcher pair are parameters
`diffFn`/`patchFn` (`diffFn` returns `none` on a diff error).
Go maps are association lists whose insert overwrites in place.
-/

set_option maxRecDepth 100000

namespace DnaBackup

/-- Chunk identifier `(Ver, Idx)` from `chunk.go` (spec §3). -/
structure ChunkId where
  ver : ℕ
  idx : ℕ
deriving DecidableEq

/-- Modelled from the spec: the `Chunk` sum type of the missing `chunk.go`
(§3): a `Stored` reference to a persisted payload, an in-memory `Temp`
payload, or a `Delta` `(source, patch, size)`. -/
inductive Chunk where
  | stored : ChunkId → Chunk
  | temp : List ℕ → Chunk
  | delta : ChunkId → List ℕ → ℕ → Chunk
deriving DecidableEq

/-- Go struct `chunkHashes { Fp uint64; Sk []uint64 }` (repo.go:80). -/
structure ChunkHashes where
  Fp : ℕ
  Sk : List ℕ
deriving DecidableEq

/-- Go struct `chunkData { hashes; content; id }` (repo.go:85). -/
structure ChunkData where
  hashes : ChunkHashes
  content : List ℕ
  id : ChunkId
deriving DecidableEq

/-- Association-list lookup, modelling a Go map read. -/
def assocFind {α β : Type} [DecidableEq α] (m : List (α × β)) (k : α) : Option β :=
  (m.find? (fun p => p.1 = k)).map (fun p => p.2)

/-- Association-list insert that overwrites the binding in place,
modelling a Go map write `m[k] = v`. -/
def assocInsert {α β : Type} [DecidableEq α] (m : List (α × β)) (k : α) (v : β) :
    List (α × β) :=
  match m with
  | [] => [(k, v)]
  | p :: rest => if p.1 = k then (k, v) :: rest else p :: assocInsert rest k v

/-- `SketchMap.Set` (repo.go:54): append `id` under every super-feature in
`key`, skipping when `contains(prev, value)` holds.  `contains` compares
`*ChunkId` pointers and each `Set` call uses one fresh pointer, so an
entry is skipped exactly when an earlier key of the same call already
appended it; `seen` records this call's already-processed keys. -/
def skSetAux (m : List (ℕ × List ChunkId)) (id : ChunkId) (seen : List ℕ) :
    List ℕ → List (ℕ × List ChunkId)
  | [] => m
  | s :: rest =>
    if s ∈ seen then skSetAux m id seen rest
    else
      let prev := (assocFind m s).getD []
      skSetAux (assocInsert m s (prev ++ [id])) id (s :: seen) rest

/-- `SketchMap.Set` (repo.go:54). -/
def skSet (m : List (ℕ × List ChunkId)) (key : List ℕ) (id : ChunkId) :
    List (ℕ × List ChunkId) :=
  skSetAux m id [] key

/-- The mutable state of a `Repo` that the matcher touches: the
fingerprint map, the sketch map, and the stored chunk payloads reachable
through `LoadChunkContent` (chunk cache plus chunk files). -/
structure RepoState where
  fingerprints : List (ℕ × ChunkId)
  sketches : List (ℕ × List ChunkId)
  store : List (ChunkId × List ℕ)
deriving DecidableEq

def emptyState : RepoState := ⟨[], [], []⟩

/-- The engine parameters: the rabinkarp64 hash (`hashFn`, used both for
rolling fingerprints and for full-content fingerprints), the sketcher
(`sketchFn`, the repo instance is `sketchChunk hashFn chunkSize 32 3 4`),
the differ and patcher, and the numeric parameters of `Repo`. -/
structure MatcherCtx where
  hashFn : List ℕ → ℕ
  sketchFn : List ℕ → List ℕ
  diffFn : List ℕ → List ℕ → Option (List ℕ)
  patchFn : List ℕ → List ℕ → List ℕ
  chunkSize : ℕ
  sketchSfCount : ℕ
  sketchFCount : ℕ

/-- `LoadChunkContent` (repo.go:324): read a chunk payload from the cache
or from disk.  A missing chunk is a fatal logged error in the source;
the model returns `[]` there (never reached on intact repositories). -/
def loadChunkContent (st : RepoState) (id : ChunkId) : List ℕ :=
  ((st.store.find? (fun p => p.1 = id)).map (fun p => p.2)).getD []

/-- The inner candidate loop of `findSimilarChunk` (repo.go:452):
`counts` is the `similarChunks` map, `similar` the current choice, and
`max` the `max` variable of the source — which is initialised to 0 and
never reassigned, so `count > max` compares against 0 throughout. -/
def voteLoop (counts : List (ChunkId × ℕ)) (similar : Option ChunkId) (max : ℕ) :
    List ChunkId → List (ChunkId × ℕ) × Option ChunkId
  | [] => (counts, similar)
  | id :: rest =>
    let count := ((assocFind counts id).getD 0) + 1
    let similar' := if count > max then some id else similar
    voteLoop (assocInsert counts id count) similar' max rest

/-- `findSimilarChunk` (repo.go:442): sketch the chunk, then for each
super-feature accumulate votes per candidate id. -/
def findSimilarChunk (ctx : MatcherCtx) (st : RepoState) (content : List ℕ) :
    Option ChunkId :=
  let sk := ctx.sketchFn content
  (sk.foldl
    (fun acc s =>
      match assocFind st.sketches s with
      | none => acc
      | some ids => voteLoop acc.1 acc.2 0 ids)
    (([] : List (ChunkId × ℕ)), (none : Option ChunkId))).2

/-- `tryDeltaEncodeChunk` (repo.go:465): look for a similar chunk; on
success diff it against the temp chunk and build a `DeltaChunk`; a diff
error is logged and the temp chunk is returned unchanged.  No size
condition is applied to the patch. -/
def tryDeltaEncodeChunk (ctx : MatcherCtx) (st : RepoState) (temp : List ℕ) :
    Chunk × Bool :=
  match findSimilarChunk ctx st temp with
  | some id =>
    match ctx.diffFn (loadChunkContent st id) temp with
    | some patch => (Chunk.delta id patch temp.length, true)
    | none => (Chunk.temp temp, false)
  | none => (Chunk.temp temp, false)

/-- `hashChunk` (repo.go:407): compute the fingerprint (rabinkarp64 over
the full content) and the sketch, and store both in the repo maps. -/
def hashChunk (ctx : MatcherCtx) (st : RepoState) (id : ChunkId) (content : List ℕ) :
    (ℕ × List ℕ) × RepoState :=
  let fp := ctx.hashFn content
  let sk := ctx.sketchFn content
  ((fp, sk),
    { st with
      fingerprints := assocInsert st.fingerprints fp id
      sketches := skSet st.sketches sk id })

/-- `sketch.FeatureSize` (sketch.go:78). -/
def featureSize (chunkSize sfCount fCount : ℕ) : ℕ :=
  chunkSize / (sfCount * fCount)

/-- `sketch.SuperFeatureSize` (sketch.go:74). -/
def superFeatureSize (chunkSize sfCount fCount : ℕ) : ℕ :=
  featureSize chunkSize sfCount fCount * sfCount

/-- `Repo.chunkMinLen` (repo.go:392). -/
def chunkMinLen (ctx : MatcherCtx) : ℕ :=
  superFeatureSize ctx.chunkSize ctx.sketchSfCount ctx.sketchFCount

/-- Result of one `encodeTempChunk` call: the returned chunk, the
`isDelta` flag, the updated repo state, the updated `last` counter and
the items sent to `storeQueue`. -/
structure EncodeResult where
  chunk : Chunk
  isDelta : Bool
  st : RepoState
  last : ℕ
  queue : List ChunkData
deriving DecidableEq

/-- `encodeTempChunk` (repo.go:485): try delta-encoding; otherwise, if
the chunk is exactly `chunkSize` long, assign id `(version, last++)`,
hash it into the maps, enqueue it for storage and put it in the chunk
cache; otherwise return the partial temp chunk unchanged. -/
def encodeTempChunk (ctx : MatcherCtx) (version : ℕ) (st : RepoState) (last : ℕ)
    (temp : List ℕ) : EncodeResult :=
  match tryDeltaEncodeChunk ctx st temp with
  | (chunk, true) => ⟨chunk, true, st, last, []⟩
  | (chunk, false) =>
    if temp.length = ctx.chunkSize then
      let id : ChunkId := ⟨version, last⟩
      let r := hashChunk ctx st id temp
      let st' := { r.2 with store := assocInsert r.2.store id temp }
      ⟨Chunk.stored id, false, st', last + 1, [⟨⟨r.1.1, r.1.2⟩, temp, id⟩]⟩
    else
      ⟨chunk, false, st, last, []⟩

/-- Result of `encodeTempChunks` and of the matcher tail. -/
structure EncodeManyResult where
  chunks : List Chunk
  st : RepoState
  last : ℕ
  queue : List ChunkData
deriving DecidableEq

/-- `encodeTempChunks` (repo.go:512): if there is no previous chunk,
encode the current one alone; if the current chunk is smaller than a
super-feature, merge both and try the merged chunk (on failure the
original pair is emitted, the inner call's state updates kept);
otherwise encode both separately. -/
def encodeTempChunks (ctx : MatcherCtx) (version : ℕ) (st : RepoState) (last : ℕ)
    (prev : Option (List ℕ)) (curr : List ℕ) : EncodeManyResult :=
  match prev with
  | none =>
    let r := encodeTempChunk ctx version st last curr
    ⟨[r.chunk], r.st, r.last, r.queue⟩
  | some p =>
    if curr.length < chunkMinLen ctx then
      let r := encodeTempChunk ctx version st last (p ++ curr)
      if r.isDelta then ⟨[r.chunk], r.st, r.last, r.queue⟩
      else ⟨[Chunk.temp p, Chunk.temp curr], r.st, r.last, r.queue⟩
    else
      let r1 := encodeTempChunk ctx version st last p
      let r2 := encodeTempChunk ctx version r1.st r1.last curr
      ⟨[r1.chunk, r2.chunk], r2.st, r2.last, r1.queue ++ r2.queue⟩

/-- The last `n` elements of a list: the rolling hasher's window is the
last `chunkSize` bytes of the matcher's buffer. -/
def takeLast {α : Type} (n : ℕ) (l : List α) : List α :=
  l.drop (l.length - n)

/-- Result of a `matchStream` run: the recipe, the final repo state, the
final `last` counter, and the `storeQueue` items in submission order. -/
structure MatchResult where
  chunks : List Chunk
  st : RepoState
  last : ℕ
  queue : List ChunkData
deriving DecidableEq

/-- The tail of `matchStream` (repo.go:594): once EOF is reached with a
non-empty buffer, either split it around `chunkSize` (flushing any held
`prev` first) or wrap it whole, and flush through `encodeTempChunks`. -/
def matchTail (ctx : MatcherCtx) (version : ℕ) (buff : List ℕ)
    (prev : Option (List ℕ)) (st : RepoState) (last : ℕ) (acc : List Chunk)
    (q : List ChunkData) : MatchResult :=
  if buff.length = 0 then ⟨acc, st, last, q⟩
  else
    if ctx.chunkSize < buff.length then
      let flushed :=
        match prev with
        | some p =>
          let r := encodeTempChunk ctx version st last p
          (acc ++ [r.chunk], r.st, r.last, q ++ r.queue)
        | none => (acc, st, last, q)
      let r := encodeTempChunks ctx version flushed.2.1 flushed.2.2.1
        (some (buff.take ctx.chunkSize)) (buff.drop ctx.chunkSize)
      ⟨flushed.1 ++ r.chunks, r.st, r.last, flushed.2.2.2 ++ r.queue⟩
    else
      let r := encodeTempChunks ctx version st last prev buff
      ⟨acc ++ r.chunks, r.st, r.last, q ++ r.queue⟩

/-- The fingerprint-hit flush of `matchStream` (repo.go:556): when
`chunkSize < len(buff) < 2*chunkSize` the unmatched prefix
`buff[:len-chunkSize]` is flushed together with `prev` through
`encodeTempChunks`; otherwise only a held `prev` is flushed.  Returns
the updated recipe, state, `last` and queue. -/
def matchHitFlush (ctx : MatcherCtx) (version : ℕ) (st : RepoState) (last : ℕ)
    (prev : Option (List ℕ)) (buff : List ℕ) (acc : List Chunk) (q : List ChunkData) :
    List Chunk × RepoState × ℕ × List ChunkData :=
  if ctx.chunkSize < buff.length ∧ buff.length < 2 * ctx.chunkSize then
    let size := buff.length - ctx.chunkSize
    let r := encodeTempChunks ctx version st last prev (buff.take size)
    (acc ++ r.chunks, r.st, r.last, q ++ r.queue)
  else
    match prev with
    | some p =>
      let r := encodeTempChunk ctx version st last p
      (acc ++ [r.chunk], r.st, r.last, q ++ r.queue)
    | none => (acc, st, last, q)

/-- The buffer-full handling of a fingerprint miss (repo.go:578): when
`len(buff) = 2*chunkSize`, any held `prev` is flushed, the older half of
the buffer becomes the new `prev` and the buffer is shifted.  Returns
the updated buffer, `prev`, state, `last`, recipe and queue. -/
def matchMissShift (ctx : MatcherCtx) (version : ℕ) (st : RepoState) (last : ℕ)
    (prev : Option (List ℕ)) (buff : List ℕ) (acc : List Chunk) (q : List ChunkData) :
    List ℕ × Option (List ℕ) × RepoState × ℕ × List Chunk × List ChunkData :=
  if buff.length = 2 * ctx.chunkSize then
    match prev with
    | some p =>
      let r := encodeTempChunk ctx version st last p
      (buff.drop ctx.chunkSize, some (buff.take ctx.chunkSize), r.st, r.last,
        acc ++ [r.chunk], q ++ r.queue)
    | none =>
      (buff.drop ctx.chunkSize, some (buff.take ctx.chunkSize), st, last, acc, q)
  else (buff, prev, st, last, acc, q)

/-- The main loop of `matchStream` (repo.go:552), fuelled for structural
termination (`matchStream` supplies enough fuel for any input).  At each
iteration the window hash is looked up in the fingerprint map; on a hit
the unmatched prefix is flushed (`matchHitFlush`), a `Stored` reference
is appended, and the buffer is refilled with up to `chunkSize` bytes
(EOF before that exits the loop into the tail); on a miss, a full
buffer is shifted (`matchMissShift`), then one more byte is read (EOF
exits into the tail). -/
def matchLoop (ctx : MatcherCtx) (version : ℕ) : ℕ → List ℕ → Option (List ℕ) →
    RepoState → ℕ → List ℕ → List Chunk → List ChunkData → Option MatchResult
  | 0, _, _, _, _, _, _, _ => none
  | fuel + 1, buff, prev, st, last, remaining, acc, q =>
    let h := ctx.hashFn (takeLast ctx.chunkSize buff)
    match assocFind st.fingerprints h with
    | some chunkId =>
      let s := matchHitFlush ctx version st last prev buff acc q
      let acc' := s.1 ++ [Chunk.stored chunkId]
      if remaining.length < ctx.chunkSize then
        some (matchTail ctx version remaining none s.2.1 s.2.2.1 acc' s.2.2.2)
      else
        matchLoop ctx version fuel (remaining.take ctx.chunkSize) none s.2.1
          s.2.2.1 (remaining.drop ctx.chunkSize) acc' s.2.2.2
    | none =>
      let s := matchMissShift ctx version st last prev buff acc q
      match remaining with
      | [] =>
        some (matchTail ctx version s.1 s.2.1 s.2.2.1 s.2.2.2.1
          s.2.2.2.2.1 s.2.2.2.2.2)
      | b :: rest =>
        matchLoop ctx version fuel (s.1 ++ [b]) s.2.1 s.2.2.1 s.2.2.2.1
          rest s.2.2.2.2.1 s.2.2.2.2.2

/-- `matchStream` (repo.go:531).  `io.ReadFull` first reads `chunkSize`
bytes: on a stream of `0 < n < chunkSize` bytes it returns
`ErrUnexpectedEOF` (not `io.EOF`), so the source hits `logger.Panicf`,
modelled as `none`; an empty stream returns `io.EOF` and yields the
single empty temp chunk `buff[:0]`. -/
def matchStream (ctx : MatcherCtx) (version : ℕ) (st : RepoState) (input : List ℕ) :
    Option MatchResult :=
  if ctx.chunkSize ≤ input.length then
    matchLoop ctx version (input.length + 1) (input.take ctx.chunkSize) none st 0
      (input.drop ctx.chunkSize) [] []
  else if input.length = 0 then
    some ⟨[Chunk.temp []], st, 0, []⟩
  else
    none

/-- Modelled from the spec: the logical content a chunk's `Reader`
streams (the `Chunk` implementations live in the missing `chunk.go`;
spec §3, §4.6): a `Stored` chunk reads its payload, a `Temp` chunk its
bytes, a `Delta` chunk `Patch(load(source), patch)`. -/
def chunkContent (ctx : MatcherCtx) (st : RepoState) : Chunk → List ℕ
  | Chunk.stored id => loadChunkContent st id
  | Chunk.temp b => b
  | Chunk.delta src patch _ => ctx.patchFn (loadChunkContent st src) patch

/-- `restoreStream` (repo.go:613): concatenate the logical contents of
the recipe's chunks. -/
def restoreStream (ctx : MatcherCtx) (st : RepoState) (recipe : List Chunk) : List ℕ :=
  (recipe.map (chunkContent ctx st)).flatten

/-- One decoded record of `loadHashes` (repo.go:374): the `j`-th record
of version `i` is inserted under the reconstructed id `(i, j)`. -/
def loadHashesRecord (st : RepoState) (i j : ℕ) (h : ChunkHashes) : RepoState :=
  { st with
    fingerprints := assocInsert st.fingerprints h.Fp ⟨i, j⟩
    sketches := skSet st.sketches h.Sk ⟨i, j⟩ }

/-- The inner decode loop of `loadHashes`: records of version `i`,
numbered from `j`. -/
def loadHashesRecords (st : RepoState) (i : ℕ) (j : ℕ) :
    List ChunkHashes → RepoState
  | [] => st
  | h :: rest => loadHashesRecords (loadHashesRecord st i j h) i (j + 1) rest

/-- The outer loop of `loadHashes`, versions numbered from `i`. -/
def loadHashesFrom (st : RepoState) (i : ℕ) : List (List ChunkHashes) → RepoState
  | [] => st
  | recs :: rest => loadHashesFrom (loadHashesRecords st i 0 recs) (i + 1) rest

/-- `loadHashes` (repo.go:368): decode every version's hashes file in
order, inserting each record into the fingerprint and sketch maps. -/
def loadHashes (st : RepoState) (versions : List (List ChunkHashes)) : RepoState :=
  loadHashesFrom st 0 versions

/-- `hashChunks` (repo.go:400) over an explicit list of identified
chunks: re-hash every stored chunk into the maps. -/
def hashChunksAll (ctx : MatcherCtx) (st : RepoState)
    (chunks : List (ChunkId × List ℕ)) : RepoState :=
  chunks.foldl (fun s p => (hashChunk ctx s p.1 p.2).2) st

/-- Result of a `storageWorker` run (repo.go:281): the version's hashes
file (in queue order), the ids whose payload write succeeded, and the
ids whose `StoreChunkContent` failed (the error is logged and the loop
continues). -/
structure WorkerResult where
  hashesFile : List ChunkHashes
  storedIds : List ChunkId
  failedIds : List ChunkId
deriving DecidableEq

/-- `storageWorker` (repo.go:281): for each queue item, append its
hashes record to the hashes file, then attempt the payload write
(`StoreChunkContent`, whose I/O outcome is the oracle `writeOk`); a
failure is logged and processing continues. -/
def storageWorker (writeOk : ChunkData → Bool) : List ChunkData → WorkerResult
  | [] => ⟨[], [], []⟩
  | d :: rest =>
    let r := storageWorker writeOk rest
    if writeOk d then ⟨d.hashes :: r.hashesFile, d.id :: r.storedIds, r.failedIds⟩
    else ⟨d.hashes :: r.hashesFile, r.storedIds, d.id :: r.failedIds⟩

/-- `binary.LittleEndian.PutUint64` (sketch.go:47): the 8 little-endian
bytes of a feature value. -/
def toLE8 (x : ℕ) : List ℕ :=
  (List.range 8).map (fun i => x / 256 ^ i % 256)

/-- `sketch.calcFeature` (sketch.go:56): the maximum of the rolling-hash
values over all length-`wSize` windows of a feature region (a region
shorter than the window is hashed whole; the short read is only
logged). -/
def calcFeature (hashF : List ℕ → ℕ) (wSize : ℕ) (region : List ℕ) : ℕ :=
  if region.length ≤ wSize then hashF region
  else
    ((List.range (region.length - wSize)).map
      (fun w => hashF ((region.drop (w + 1)).take wSize))).foldl
      Nat.max (hashF (region.take wSize))

/-- `sketch.SketchChunk` (sketch.go:24): one feature per consecutive
`fSize`-byte region, then one super-feature per group of `fCount`
features, obtained by hashing their packed little-endian bytes. -/
def sketchChunk (hashF : List ℕ → ℕ) (chunkSize wSize sfCount fCount : ℕ)
    (chunk : List ℕ) : List ℕ :=
  let fSize := featureSize chunkSize sfCount fCount
  let features := (List.range (chunk.length / fSize)).map
    (fun f => calcFeature hashF wSize ((chunk.drop (f * fSize)).take fSize))
  (List.range (features.length / fCount)).map
    (fun sf => hashF ((((features.drop (sf * fCount)).take fCount).map toLE8).flatten))

/-- An injective encoding of byte lists, used to instantiate `hashFn`
with a collision-free hash on concrete runs. -/
def encodeList : List ℕ → ℕ
  | [] => 0
  | b :: t => Nat.pair b (encodeList t) + 1

/-- The spec's vote count of `findSimilarChunk` (§4.5), stated from the
spec's words for comparison with the source: the number of occurrences
of a candidate id among the candidate lists of the query's
super-features. -/
def specVoteCount (ctx : MatcherCtx) (st : RepoState) (content : List ℕ)
    (id : ChunkId) : ℕ :=
  ((ctx.sketchFn content).map
    (fun s => ((assocFind st.sketches s).getD []).count id)).sum

/-- Wellformedness of a store queue from position `j`: the `k`-th item
has the dense id `(v, j+k)` and carries the fingerprint and sketch of
its own content. -/
def queueOkB (ctx : MatcherCtx) (v : ℕ) : ℕ → List ChunkData → Bool
  | _, [] => true
  | j, d :: rest =>
    (decide (d.id = ⟨v, j⟩) &&
      decide (d.hashes = ⟨ctx.hashFn d.content, ctx.sketchFn d.content⟩)) &&
    queueOkB ctx v (j + 1) rest

/-- A store queue aligned with the `last` counter: it has `last` items
and item `j` is the well-formed record of chunk `(v, j)`. -/
def QOK (ctx : MatcherCtx) (v : ℕ) (last : ℕ) (q : List ChunkData) : Prop :=
  q.length = last ∧ queueOkB ctx v 0 q = true

/-- Every `Temp` chunk in a chunk list has length in `[1, 2*chunkSize)`. -/
def TempOk (ctx : MatcherCtx) (cs : List Chunk) : Prop :=
  ∀ b, Chunk.temp b ∈ cs → 1 ≤ b.length ∧ b.length < 2 * ctx.chunkSize

/-- A collision-free engine with `chunkSize = 2` and a sketcher that
yields no super-features (chunks below the sketchable minimum), used for
concrete matcher runs. -/
def ctx2 : MatcherCtx :=
  ⟨encodeList, fun _ => [], fun _ _ => none, fun _ p => p, 2, 3, 4⟩

/-- The default-parameter engine (`chunkSize = 8192`), hash and sketch
irrelevant for the initialisation path. -/
def ctx8k : MatcherCtx :=
  ⟨fun _ => 0, fun _ => [], fun _ _ => none, fun _ p => p, 8192, 3, 4⟩

/-- A repository holding one previously committed chunk `[3,4]` with its
fingerprint indexed, as `loadHashes` produces before a second commit. -/
def stC4 : RepoState := ⟨[(encodeList [3, 4], ⟨0, 0⟩)], [], [(⟨0, 0⟩, [3, 4])]⟩

/-- An engine whose sketcher gives every chunk the super-features
`[1, 2]`. -/
def ctxC5 : MatcherCtx :=
  ⟨fun _ => 0, fun _ => [1, 2], fun _ _ => none, fun _ p => p, 2, 3, 4⟩

/-- A sketch index where candidate `(0,0)` appears under both
super-features 1 and 2, and candidate `(0,1)` only under 2 (iterated
last). -/
def stC5 : RepoState := ⟨[], [(1, [⟨0, 0⟩]), (2, [⟨0, 0⟩, ⟨0, 1⟩])], []⟩

/-- An engine with `chunkSize = 20` whose sketcher always finds
super-feature 7 and whose differ returns the whole target as the patch
(a worst-case but legal `Differ`). -/
def ctxC3 : MatcherCtx :=
  ⟨fun _ => 0, fun _ => [7], fun _ t => some t, fun _ p => p, 20, 3, 4⟩

/-- A repository with one stored chunk indexed under super-feature 7. -/
def stC3 : RepoState := ⟨[], [(7, [⟨0, 0⟩])], [(⟨0, 0⟩, List.replicate 20 9)]⟩

/-- The store queue emitted by committing `[1,1,2,2,3,3,1,1]` with
`ctx2` to a fresh repository (fingerprints 11 and 52 are
`encodeList [1,1]` and `encodeList [2,2]`). -/
def qsW : List (List ChunkData) :=
  [[⟨⟨11, []⟩, [1, 1], ⟨0, 0⟩⟩, ⟨⟨52, []⟩, [2, 2], ⟨0, 1⟩⟩]]

/-- The result of matching `[5,6,7]` with `ctx2` on a fresh repository:
one stored chunk and the tail temp chunk `[7]`. -/
def resC9w : MatchResult :=
  (matchStream ctx2 0 emptyState [5, 6, 7]).getD ⟨[], emptyState, 0, []⟩

/-- A sample queue item for the storage-worker witness. -/
def dW : ChunkData := ⟨⟨5, [7]⟩, [1, 2], ⟨0, 1⟩⟩

/-! ## Generic lemmas about the map operations -/

theorem assocFind_assocInsert_self {α β : Type} [DecidableEq α]
    (m : List (α × β)) (k : α) (v : β) :
    assocFind (assocInsert m k v) k = some v := by
  induction m with
  | nil => simp [assocFind, assocInsert]
  | cons p rest ih =>
    by_cases h : p.1 = k
    · simp [assocInsert, assocFind, h]
    · simp only [assocInsert, if_neg h]
      simpa [assocFind, List.find?, h] using ih

/-! ## Structure of `tryDeltaEncodeChunk` and `encodeTempChunk` -/

theorem tryDeltaEncodeChunk_cases (ctx : MatcherCtx) (st : RepoState) (t : List ℕ) :
    tryDeltaEncodeChunk ctx st t = (Chunk.temp t, false) ∨
      ∃ id patch, tryDeltaEncodeChunk ctx st t = (Chunk.delta id patch t.length, true) := by
  cases hf : findSimilarChunk ctx st t with
  | none => exact Or.inl (by simp [tryDeltaEncodeChunk, hf])
  | some id =>
    cases hd : ctx.diffFn (loadChunkContent st id) t with
    | none => exact Or.inl (by simp [tryDeltaEncodeChunk, hf, hd])
    | some patch => exact Or.inr ⟨id, patch, by simp [tryDeltaEncodeChunk, hf, hd]⟩

theorem encodeTempChunk_spec (ctx : MatcherCtx) (version : ℕ) (st : RepoState)
    (last : ℕ) (t : List ℕ) :
    (∃ id patch,
        encodeTempChunk ctx version st last t =
          ⟨Chunk.delta id patch t.length, true, st, last, []⟩) ∨
    (t.length = ctx.chunkSize ∧
        (encodeTempChunk ctx version st last t).chunk = Chunk.stored ⟨version, last⟩ ∧
        (encodeTempChunk ctx version st last t).isDelta = false ∧
        (encodeTempChunk ctx version st last t).last = last + 1 ∧
        (encodeTempChunk ctx version st last t).queue =
          [⟨⟨ctx.hashFn t, ctx.sketchFn t⟩, t, ⟨version, last⟩⟩]) ∨
    (t.length ≠ ctx.chunkSize ∧
        encodeTempChunk ctx version st last t = ⟨Chunk.temp t, false, st, last, []⟩) := by
  rcases tryDeltaEncodeChunk_cases ctx st t with h | ⟨id, patch, h⟩
  · by_cases hl : t.length = ctx.chunkSize
    · refine Or.inr (Or.inl ⟨hl, ?_, ?_, ?_, ?_⟩) <;>
        simp [encodeTempChunk, h, hl, hashChunk]
    · exact Or.inr (Or.inr ⟨hl, by simp [encodeTempChunk, h, hl]⟩)
  · exact Or.inl ⟨id, patch, by simp [encodeTempChunk, h]⟩

theorem encodeTempChunk_temp (ctx : MatcherCtx) (version : ℕ) (st : RepoState)
    (last : ℕ) (t b : List ℕ)
    (h : (encodeTempChunk ctx version st last t).chunk = Chunk.temp b) :
    b = t ∧ t.length ≠ ctx.chunkSize := by
  rcases encodeTempChunk_spec ctx version st last t with
    ⟨id, patch, he⟩ | ⟨_, hc, _⟩ | ⟨hl, he⟩
  · rw [he] at h; cases h
  · rw [hc] at h; cases h
  · rw [he] at h
    injection h with h1
    exact ⟨h1.symm, hl⟩

theorem encodeTempChunk_isDelta_chunk (ctx : MatcherCtx) (version : ℕ)
    (st : RepoState) (last : ℕ) (t : List ℕ)
    (h : (encodeTempChunk ctx version st last t).isDelta = true) :
    ∃ id patch, (encodeTempChunk ctx version st last t).chunk =
      Chunk.delta id patch t.length := by
  rcases encodeTempChunk_spec ctx version st last t with
    ⟨id, patch, he⟩ | ⟨_, _, hd, _⟩ | ⟨_, he⟩
  · exact ⟨id, patch, by rw [he]⟩
  · rw [hd] at h; cases h
  · rw [he] at h; cases h

theorem encodeTempChunks_temp (ctx : MatcherCtx) (version : ℕ) (st : RepoState)
    (last : ℕ) (prev : Option (List ℕ)) (curr b : List ℕ)
    (h : Chunk.temp b ∈ (encodeTempChunks ctx version st last prev curr).chunks) :
    b = curr ∨ prev = some b := by
  match prev with
  | none =>
    simp only [encodeTempChunks, List.mem_singleton] at h
    exact Or.inl (encodeTempChunk_temp ctx version st last curr b h.symm).1
  | some p =>
    by_cases hm : curr.length < chunkMinLen ctx
    · simp only [encodeTempChunks, if_pos hm] at h
      by_cases hd : (encodeTempChunk ctx version st last (p ++ curr)).isDelta = true
      · simp only [if_pos hd, List.mem_singleton] at h
        obtain ⟨id, patch, hc⟩ := encodeTempChunk_isDelta_chunk ctx version st last
          (p ++ curr) hd
        rw [← h] at hc; cases hc
      · simp only [if_neg hd, List.mem_cons, List.mem_singleton,
          List.not_mem_nil, or_false] at h
        rcases h with h | h
        · injection h with h1
          exact Or.inr (by rw [h1])
        · injection h with h1
          exact Or.inl h1
    · simp only [encodeTempChunks, if_neg hm, List.mem_cons, List.mem_singleton,
        List.not_mem_nil, or_false] at h
      rcases h with h | h
      · exact Or.inr (by
          rw [(encodeTempChunk_temp ctx version st last p b h.symm).1])
      · exact Or.inl (encodeTempChunk_temp ctx version
          (encodeTempChunk ctx version st last p).st
          (encodeTempChunk ctx version st last p).last curr b h.symm).1

/-! ## Temp-chunk length invariants of the matcher -/

theorem TempOk_nil (ctx : MatcherCtx) : TempOk ctx [] := by
  intro b hb
  cases hb

theorem TempOk_append (ctx : MatcherCtx) (a b : List Chunk)
    (ha : TempOk ctx a) (hb : TempOk ctx b) : TempOk ctx (a ++ b) := by
  intro c hc
  rcases List.mem_append.mp hc with h | h
  · exact ha c h
  · exact hb c h

theorem TempOk_stored (ctx : MatcherCtx) (id : ChunkId) :
    TempOk ctx [Chunk.stored id] := by
  intro b hb
  simp at hb

theorem TempOk_encodeTempChunks (ctx : MatcherCtx) (version : ℕ) (st : RepoState)
    (last : ℕ) (prev : Option (List ℕ)) (curr : List ℕ)
    (hc : 0 < ctx.chunkSize)
    (hp : ∀ p, prev = some p → p.length = ctx.chunkSize)
    (h1 : 1 ≤ curr.length) (h2 : curr.length < 2 * ctx.chunkSize) :
    TempOk ctx (encodeTempChunks ctx version st last prev curr).chunks := by
  intro b hb
  rcases encodeTempChunks_temp ctx version st last prev curr b hb with h | h
  · subst h
    exact ⟨h1, h2⟩
  · have hlen := hp b h
    omega

theorem TempOk_encodeTempChunk_flush (ctx : MatcherCtx) (version : ℕ)
    (st : RepoState) (last : ℕ) (p : List ℕ) (acc : List Chunk)
    (hl : p.length = ctx.chunkSize) (hacc : TempOk ctx acc) :
    TempOk ctx (acc ++ [(encodeTempChunk ctx version st last p).chunk]) := by
  refine TempOk_append _ _ _ hacc ?_
  intro b hb
  simp only [List.mem_singleton] at hb
  exact absurd hl (encodeTempChunk_temp ctx version st last p b hb.symm).2

theorem TempOk_matchTail (ctx : MatcherCtx) (version : ℕ) (buff : List ℕ)
    (prev : Option (List ℕ)) (st : RepoState) (last : ℕ) (acc : List Chunk)
    (q : List ChunkData)
    (hc : 0 < ctx.chunkSize)
    (hp : ∀ p, prev = some p → p.length = ctx.chunkSize)
    (hb : buff.length < 2 * ctx.chunkSize)
    (hacc : TempOk ctx acc) :
    TempOk ctx (matchTail ctx version buff prev st last acc q).chunks := by
  unfold matchTail
  by_cases h0 : buff.length = 0
  · rw [if_pos h0]
    exact hacc
  · rw [if_neg h0]
    by_cases hgt : ctx.chunkSize < buff.length
    · rw [if_pos hgt]
      cases prev with
      | none =>
        refine TempOk_append _ _ _ hacc ?_
        refine TempOk_encodeTempChunks _ _ _ _ _ _ hc ?_ ?_ ?_
        · intro p hp'
          injection hp' with hp''
          rw [← hp'', List.length_take]
          omega
        · rw [List.length_drop]
          omega
        · rw [List.length_drop]
          omega
      | some p =>
        refine TempOk_append _ _ _
          (TempOk_encodeTempChunk_flush ctx version st last p acc (hp p rfl) hacc) ?_
        refine TempOk_encodeTempChunks _ _ _ _ _ _ hc ?_ ?_ ?_
        · intro p' hp'
          injection hp' with hp''
          rw [← hp'', List.length_take]
          omega
        · rw [List.length_drop]
          omega
        · rw [List.length_drop]
          omega
    · rw [if_neg hgt]
      refine TempOk_append _ _ _ hacc ?_
      refine TempOk_encodeTempChunks _ _ _ _ _ _ hc hp ?_ ?_ <;> omega

theorem TempOk_matchHitFlush (ctx : MatcherCtx) (version : ℕ) (st : RepoState)
    (last : ℕ) (prev : Option (List ℕ)) (buff : List ℕ) (acc : List Chunk)
    (q : List ChunkData)
    (hc : 0 < ctx.chunkSize)
    (hp : ∀ p, prev = some p → p.length = ctx.chunkSize)
    (hacc : TempOk ctx acc) :
    TempOk ctx (matchHitFlush ctx version st last prev buff acc q).1 := by
  unfold matchHitFlush
  by_cases hcond : ctx.chunkSize < buff.length ∧ buff.length < 2 * ctx.chunkSize
  · rw [if_pos hcond]
    refine TempOk_append _ _ _ hacc ?_
    refine TempOk_encodeTempChunks _ _ _ _ _ _ hc hp ?_ ?_
    · rw [List.length_take]
      omega
    · rw [List.length_take]
      omega
  · rw [if_neg hcond]
    cases prev with
    | none => exact hacc
    | some p =>
      exact TempOk_encodeTempChunk_flush ctx version st last p acc (hp p rfl) hacc

theorem matchMissShift_spec (ctx : MatcherCtx) (version : ℕ) (st : RepoState)
    (last : ℕ) (prev : Option (List ℕ)) (buff : List ℕ) (acc : List Chunk)
    (q : List ChunkData)
    (hc : 0 < ctx.chunkSize)
    (hb1 : ctx.chunkSize ≤ buff.length) (hb2 : buff.length ≤ 2 * ctx.chunkSize)
    (hp : ∀ p, prev = some p → p.length = ctx.chunkSize)
    (hacc : TempOk ctx acc) :
    ctx.chunkSize ≤ (matchMissShift ctx version st last prev buff acc q).1.length ∧
      (matchMissShift ctx version st last prev buff acc q).1.length <
        2 * ctx.chunkSize ∧
      (∀ p, (matchMissShift ctx version st last prev buff acc q).2.1 = some p →
        p.length = ctx.chunkSize) ∧
      TempOk ctx (matchMissShift ctx version st last prev buff acc q).2.2.2.2.1 := by
  unfold matchMissShift
  by_cases hfull : buff.length = 2 * ctx.chunkSize
  · rw [if_pos hfull]
    cases prev with
    | none =>
      refine ⟨?_, ?_, ?_, hacc⟩
      · rw [List.length_drop]
        omega
      · rw [List.length_drop]
        omega
      · intro p hp'
        injection hp' with hp''
        rw [← hp'', List.length_take]
        omega
    | some p =>
      refine ⟨?_, ?_, ?_, ?_⟩
      · rw [List.length_drop]
        omega
      · rw [List.length_drop]
        omega
      · intro p' hp'
        injection hp' with hp''
        rw [← hp'', List.length_take]
        omega
      · exact TempOk_encodeTempChunk_flush ctx version st last p acc (hp p rfl) hacc
  · rw [if_neg hfull]
    refine ⟨hb1, ?_, hp, hacc⟩
    show buff.length < 2 * ctx.chunkSize
    omega

theorem TempOk_matchLoop (ctx : MatcherCtx) (version : ℕ) (fuel : ℕ) :
    ∀ (buff : List ℕ) (prev : Option (List ℕ)) (st : RepoState) (last : ℕ)
      (remaining : List ℕ) (acc : List Chunk) (q : List ChunkData) (res : MatchResult),
      0 < ctx.chunkSize →
      ctx.chunkSize ≤ buff.length → buff.length ≤ 2 * ctx.chunkSize →
      (∀ p, prev = some p → p.length = ctx.chunkSize) →
      TempOk ctx acc →
      matchLoop ctx version fuel buff prev st last remaining acc q = some res →
      TempOk ctx res.chunks := by
  induction fuel with
  | zero =>
    intro buff prev st last remaining acc q res _ _ _ _ _ hrun
    simp [matchLoop] at hrun
  | succ fuel ih =>
    intro buff prev st last remaining acc q res hc hb1 hb2 hp hacc hrun
    rw [matchLoop] at hrun
    cases hfp : assocFind st.fingerprints (ctx.hashFn (takeLast ctx.chunkSize buff)) with
    | some chunkId =>
      rw [hfp] at hrun
      simp only at hrun
      have haccs : TempOk ctx
          ((matchHitFlush ctx version st last prev buff acc q).1 ++
            [Chunk.stored chunkId]) :=
        TempOk_append _ _ _
          (TempOk_matchHitFlush ctx version st last prev buff acc q hc hp hacc)
          (TempOk_stored ctx chunkId)
      by_cases hrem : remaining.length < ctx.chunkSize
      · rw [if_pos hrem] at hrun
        injection hrun with hres
        rw [← hres]
        refine TempOk_matchTail ctx version remaining none _ _ _ _ hc ?_ ?_ haccs
        · intro p hp'
          cases hp'
        · omega
      · rw [if_neg hrem] at hrun
        refine ih _ _ _ _ _ _ _ _ hc ?_ ?_ ?_ haccs hrun
        · rw [List.length_take]
          omega
        · rw [List.length_take]
          omega
        · intro p hp'
          cases hp'
    | none =>
      rw [hfp] at hrun
      simp only at hrun
      obtain ⟨hs1, hs2, hs3, hs4⟩ := matchMissShift_spec ctx version st last prev buff
        acc q hc hb1 hb2 hp hacc
      cases remaining with
      | nil =>
        injection hrun with hres
        rw [← hres]
        exact TempOk_matchTail ctx version _ _ _ _ _ _ hc hs3 hs2 hs4
      | cons b rest =>
        refine ih _ _ _ _ _ _ _ _ hc ?_ ?_ hs3 hs4 hrun
        · rw [List.length_append]
          simp only [List.length_singleton]
          omega
        · rw [List.length_append]
          simp only [List.length_singleton]
          omega

/-! ## Store-queue well-formedness invariants of the matcher -/

theorem queueOkB_append (ctx : MatcherCtx) (v : ℕ) :
    ∀ (q1 : List ChunkData) (j : ℕ) (q2 : List ChunkData),
      queueOkB ctx v j q1 = true → queueOkB ctx v (j + q1.length) q2 = true →
      queueOkB ctx v j (q1 ++ q2) = true := by
  intro q1
  induction q1 with
  | nil =>
    intro j q2 _ h2
    simpa using h2
  | cons d rest ih =>
    intro j q2 h1 h2
    rw [List.cons_append]
    simp only [queueOkB, Bool.and_eq_true] at h1 ⊢
    refine ⟨h1.1, ih (j + 1) q2 h1.2 ?_⟩
    have heq : j + 1 + rest.length = j + (d :: rest).length := by
      rw [List.length_cons]
      omega
    rw [heq]
    exact h2

theorem encodeTempChunk_queue_last (ctx : MatcherCtx) (version : ℕ) (st : RepoState)
    (last : ℕ) (t : List ℕ) :
    ((encodeTempChunk ctx version st last t).last = last ∧
        (encodeTempChunk ctx version st last t).queue = []) ∨
      ((encodeTempChunk ctx version st last t).last = last + 1 ∧
        (encodeTempChunk ctx version st last t).queue =
          [⟨⟨ctx.hashFn t, ctx.sketchFn t⟩, t, ⟨version, last⟩⟩]) := by
  rcases encodeTempChunk_spec ctx version st last t with
    ⟨id, patch, he⟩ | ⟨_, _, _, hl, hq⟩ | ⟨_, he⟩
  · rw [he]
    exact Or.inl ⟨rfl, rfl⟩
  · exact Or.inr ⟨hl, hq⟩
  · rw [he]
    exact Or.inl ⟨rfl, rfl⟩

theorem QOK_encodeTempChunk (ctx : MatcherCtx) (v : ℕ) (st : RepoState) (last : ℕ)
    (t : List ℕ) (q : List ChunkData) (h : QOK ctx v last q) :
    QOK ctx v (encodeTempChunk ctx v st last t).last
      (q ++ (encodeTempChunk ctx v st last t).queue) := by
  obtain ⟨hlen, hok⟩ := h
  rcases encodeTempChunk_queue_last ctx v st last t with ⟨hl, hq⟩ | ⟨hl, hq⟩
  · rw [hl, hq, List.append_nil]
    exact ⟨hlen, hok⟩
  · rw [hl, hq]
    constructor
    · rw [List.length_append, List.length_singleton]
      omega
    · refine queueOkB_append ctx v q 0 _ hok ?_
      rw [Nat.zero_add, hlen]
      simp [queueOkB]

theorem QOK_encodeTempChunks (ctx : MatcherCtx) (v : ℕ) (st : RepoState) (last : ℕ)
    (prev : Option (List ℕ)) (curr : List ℕ) (q : List ChunkData)
    (h : QOK ctx v last q) :
    QOK ctx v (encodeTempChunks ctx v st last prev curr).last
      (q ++ (encodeTempChunks ctx v st last prev curr).queue) := by
  match prev with
  | none =>
    simp only [encodeTempChunks]
    exact QOK_encodeTempChunk ctx v st last curr q h
  | some p =>
    by_cases hm : curr.length < chunkMinLen ctx
    · simp only [encodeTempChunks, if_pos hm]
      by_cases hd : (encodeTempChunk ctx v st last (p ++ curr)).isDelta = true
      · simp only [if_pos hd]
        exact QOK_encodeTempChunk ctx v st last (p ++ curr) q h
      · simp only [if_neg hd]
        exact QOK_encodeTempChunk ctx v st last (p ++ curr) q h
    · simp only [encodeTempChunks, if_neg hm]
      rw [← List.append_assoc]
      exact QOK_encodeTempChunk ctx v _ _ curr _
        (QOK_encodeTempChunk ctx v st last p q h)

theorem QOK_matchHitFlush (ctx : MatcherCtx) (v : ℕ) (st : RepoState) (last : ℕ)
    (prev : Option (List ℕ)) (buff : List ℕ) (acc : List Chunk) (q : List ChunkData)
    (h : QOK ctx v last q) :
    QOK ctx v (matchHitFlush ctx v st last prev buff acc q).2.2.1
      (matchHitFlush ctx v st last prev buff acc q).2.2.2 := by
  unfold matchHitFlush
  by_cases hcond : ctx.chunkSize < buff.length ∧ buff.length < 2 * ctx.chunkSize
  · rw [if_pos hcond]
    exact QOK_encodeTempChunks ctx v st last prev _ q h
  · rw [if_neg hcond]
    cases prev with
    | none => exact h
    | some p => exact QOK_encodeTempChunk ctx v st last p q h

theorem QOK_matchMissShift (ctx : MatcherCtx) (v : ℕ) (st : RepoState) (last : ℕ)
    (prev : Option (List ℕ)) (buff : List ℕ) (acc : List Chunk) (q : List ChunkData)
    (h : QOK ctx v last q) :
    QOK ctx v (matchMissShift ctx v st last prev buff acc q).2.2.2.1
      (matchMissShift ctx v st last prev buff acc q).2.2.2.2.2 := by
  unfold matchMissShift
  by_cases hfull : buff.length = 2 * ctx.chunkSize
  · rw [if_pos hfull]
    cases prev with
    | none => exact h
    | some p => exact QOK_encodeTempChunk ctx v st last p q h
  · rw [if_neg hfull]
    exact h

theorem QOK_matchTail (ctx : MatcherCtx) (v : ℕ) (buff : List ℕ)
    (prev : Option (List ℕ)) (st : RepoState) (last : ℕ) (acc : List Chunk)
    (q : List ChunkData) (h : QOK ctx v last q) :
    QOK ctx v (matchTail ctx v buff prev st last acc q).last
      (matchTail ctx v buff prev st last acc q).queue := by
  unfold matchTail
  by_cases h0 : buff.length = 0
  · rw [if_pos h0]
    exact h
  · rw [if_neg h0]
    by_cases hgt : ctx.chunkSize < buff.length
    · rw [if_pos hgt]
      cases prev with
      | none =>
        exact QOK_encodeTempChunks ctx v st last _ _ q h
      | some p =>
        exact QOK_encodeTempChunks ctx v _ _ _ _ _
          (QOK_encodeTempChunk ctx v st last p q h)
    · rw [if_neg hgt]
      exact QOK_encodeTempChunks ctx v st last prev buff q h

theorem QOK_matchLoop (ctx : MatcherCtx) (v : ℕ) (fuel : ℕ) :
    ∀ (buff : List ℕ) (prev : Option (List ℕ)) (st : RepoState) (last : ℕ)
      (remaining : List ℕ) (acc : List Chunk) (q : List ChunkData) (res : MatchResult),
      QOK ctx v last q →
      matchLoop ctx v fuel buff prev st last remaining acc q = some res →
      QOK ctx v res.last res.queue := by
  induction fuel with
  | zero =>
    intro buff prev st last remaining acc q res _ hrun
    simp [matchLoop] at hrun
  | succ fuel ih =>
    intro buff prev st last remaining acc q res h hrun
    rw [matchLoop] at hrun
    cases hfp : assocFind st.fingerprints (ctx.hashFn (takeLast ctx.chunkSize buff)) with
    | some chunkId =>
      rw [hfp] at hrun
      simp only at hrun
      have hs := QOK_matchHitFlush ctx v st last prev buff acc q h
      by_cases hrem : remaining.length < ctx.chunkSize
      · rw [if_pos hrem] at hrun
        injection hrun with hres
        rw [← hres]
        exact QOK_matchTail ctx v _ _ _ _ _ _ hs
      · rw [if_neg hrem] at hrun
        exact ih _ _ _ _ _ _ _ _ hs hrun
    | none =>
      rw [hfp] at hrun
      simp only at hrun
      have hs := QOK_matchMissShift ctx v st last prev buff acc q h
      cases remaining with
      | nil =>
        injection hrun with hres
        rw [← hres]
        exact QOK_matchTail ctx v _ _ _ _ _ _ hs
      | cons b rest =>
        exact ih _ _ _ _ _ _ _ _ hs hrun

theorem matchStream_queue_wf (ctx : MatcherCtx) (v : ℕ) (st : RepoState)
    (input : List ℕ) (res : MatchResult)
    (hrun : matchStream ctx v st input = some res) :
    res.queue.length = res.last ∧ queueOkB ctx v 0 res.queue = true := by
  unfold matchStream at hrun
  by_cases hlen : ctx.chunkSize ≤ input.length
  · rw [if_pos hlen] at hrun
    refine QOK_matchLoop ctx v (input.length + 1) _ _ _ _ _ _ _ _ ?_ hrun
    exact ⟨rfl, rfl⟩
  · rw [if_neg hlen] at hrun
    by_cases h0 : input.length = 0
    · rw [if_pos h0] at hrun
      injection hrun with hres
      rw [← hres]
      exact ⟨rfl, rfl⟩
    · rw [if_neg h0] at hrun
      cases hrun

/-! ## Reloading hashes versus re-hashing stored chunks -/

theorem storageWorker_hashesFile (writeOk : ChunkData → Bool) (queue : List ChunkData) :
    (storageWorker writeOk queue).hashesFile = queue.map (fun d => d.hashes) := by
  induction queue with
  | nil => rfl
  | cons d rest ih =>
    by_cases h : writeOk d = true <;> simp [storageWorker, h, ih]

theorem hashChunksAll_append (ctx : MatcherCtx) (st : RepoState)
    (a b : List (ChunkId × List ℕ)) :
    hashChunksAll ctx st (a ++ b) = hashChunksAll ctx (hashChunksAll ctx st a) b := by
  simp [hashChunksAll, List.foldl_append]

theorem loadHashesRecords_eq_rehash (ctx : MatcherCtx) (i : ℕ) :
    ∀ (q : List ChunkData) (st : RepoState) (j : ℕ),
      queueOkB ctx i j q = true →
      loadHashesRecords st i j (q.map (fun d => d.hashes)) =
        hashChunksAll ctx st (q.map (fun d => (d.id, d.content))) := by
  intro q
  induction q with
  | nil =>
    intro st j _
    rfl
  | cons d rest ih =>
    intro st j h
    simp only [queueOkB, Bool.and_eq_true, decide_eq_true_eq] at h
    obtain ⟨⟨hid, hh⟩, hrest⟩ := h
    rw [List.map_cons, List.map_cons]
    show loadHashesRecords (loadHashesRecord st i j d.hashes) i (j + 1)
        (rest.map (fun d => d.hashes)) =
      hashChunksAll ctx st ((d.id, d.content) :: rest.map (fun d => (d.id, d.content)))
    have hstep : loadHashesRecord st i j d.hashes = (hashChunk ctx st d.id d.content).2 := by
      rw [hid, hh]
      simp [loadHashesRecord, hashChunk]
    have hfold : hashChunksAll ctx st
        ((d.id, d.content) :: rest.map (fun d => (d.id, d.content))) =
        hashChunksAll ctx (hashChunk ctx st d.id d.content).2
          (rest.map (fun d => (d.id, d.content))) := rfl
    rw [hstep, hfold]
    exact ih _ (j + 1) hrest

theorem loadHashesFrom_eq_rehash (ctx : MatcherCtx) :
    ∀ (qs : List (List ChunkData)) (st : RepoState) (i : ℕ),
      (∀ v (h : v < qs.length), queueOkB ctx (i + v) 0 (qs.get ⟨v, h⟩) = true) →
      loadHashesFrom st i (qs.map (fun q => q.map (fun d => d.hashes))) =
        hashChunksAll ctx st
          ((qs.map (fun q => q.map (fun d => (d.id, d.content)))).flatten) := by
  intro qs
  induction qs with
  | nil =>
    intro st i _
    rfl
  | cons qh rest ih =>
    intro st i h
    have h0 : queueOkB ctx i 0 qh = true := by
      have := h 0 (by simp)
      simpa using this
    show loadHashesFrom (loadHashesRecords st i 0 (qh.map (fun d => d.hashes))) (i + 1)
        (rest.map (fun q => q.map (fun d => d.hashes))) =
      hashChunksAll ctx st
        (((qh :: rest).map (fun q => q.map (fun d => (d.id, d.content)))).flatten)
    rw [loadHashesRecords_eq_rehash ctx i qh st 0 h0]
    rw [List.map_cons, List.flatten_cons, hashChunksAll_append]
    refine ih _ (i + 1) ?_
    intro v hv
    have hv' : v + 1 < (qh :: rest).length := by
      rw [List.length_cons]
      omega
    have := h (v + 1) hv'
    have heq : i + (v + 1) = i + 1 + v := by omega
    rw [heq] at this
    simpa using this

/-! ## Claim C1 — round-trip -/

/-- C1 (code_bug evidence): committing a directory tree to a fresh
repository and restoring it does NOT always reproduce it byte-for-byte.
With a collision-free hash, `chunkSize = 2` and the 8-byte stream
`[1,1,2,2,3,3,1,1]`, the matcher stores `[1,1]` (hit by the final
window), then at the hit the buffer is full (`len(buff) = 2*chunkSize`),
the guard `len(buff) < chunkSize*2` of repo.go:556 fails, and the
unmatched prefix `[3,3]` is silently discarded: the restored stream is
`[1,1,2,2,1,1]`, two bytes short of the input. -/
theorem C1_commit_restore_drops_bytes :
    (matchStream ctx2 0 emptyState [1, 1, 2, 2, 3, 3, 1, 1]).map
        (fun r => restoreStream ctx2 r.st r.chunks) = some [1, 1, 2, 2, 1, 1] ∧
      ([1, 1, 2, 2, 1, 1] : List ℕ) ≠ [1, 1, 2, 2, 3, 3, 1, 1] := by
  exact ⟨by decide, by decide⟩

/-! ## Claim C2 — streams shorter than `chunkSize` -/

/-- C2 (code_bug evidence): `matchStream` only emits the single Temp
chunk when `io.ReadFull` read `n = 0` bytes (the only case in which it
returns `io.EOF`); for `0 < n < chunkSize` — here a 590-byte stream
with `chunkSize = 8192` — `io.ReadFull` returns `ErrUnexpectedEOF`, the
`err == io.EOF` test of repo.go:540 fails and the source panics
(modelled by `none`) instead of returning a one-Temp recipe. -/
theorem C2_short_stream_panics :
    matchStream ctx8k 0 emptyState (List.replicate 590 0) = none ∧
      matchStream ctx8k 0 emptyState [] = some ⟨[Chunk.temp []], emptyState, 0, []⟩ := by
  exact ⟨by decide, by decide⟩

/-! ## Claim C3 — delta patch size bound -/

/-- C3 (counterexample): a recipe produced by `matchStream` can contain
a `Delta` chunk whose patch is not smaller than `chunkSize/10`.  With
`chunkSize = 20`, a differ that returns the whole 21-byte target as the
patch, and a sketch index holding one similar candidate, the recipe is
a single Delta chunk with a 21-byte patch, while `chunkSize/10 = 2`:
`tryDeltaEncodeChunk` (repo.go:465) applies no size test whatsoever. -/
theorem C3_fat_delta_in_recipe :
    (matchStream ctxC3 0 stC3 (List.replicate 21 1)).map (fun r => r.chunks) =
        some [Chunk.delta ⟨0, 0⟩ (List.replicate 21 1) 21] ∧
      ¬((List.replicate (21 : ℕ) (1 : ℕ)).length < ctxC3.chunkSize / 10) := by
  exact ⟨by decide, by decide⟩

/-- C3 (amended): whenever `findSimilarChunk` finds a candidate and the
differ succeeds, `tryDeltaEncodeChunk` accepts the delta encoding
unconditionally — the patch becomes the Delta chunk's patch with no
bound on its size. -/
theorem C3_amended_delta_unconditional (ctx : MatcherCtx) (st : RepoState)
    (temp : List ℕ) (id : ChunkId) (patch : List ℕ)
    (hfind : findSimilarChunk ctx st temp = some id)
    (hdiff : ctx.diffFn (loadChunkContent st id) temp = some patch) :
    tryDeltaEncodeChunk ctx st temp = (Chunk.delta id patch temp.length, true) := by
  simp [tryDeltaEncodeChunk, hfind, hdiff]

/-- C3 (witness): the amended statement at a concrete repository: the
similar chunk `(0,0)` is found for the one-byte chunk `[1]` and the
(whole-target) patch is accepted as a Delta. -/
theorem C3_amended_delta_unconditional_witness :
    tryDeltaEncodeChunk ctxC3 stC3 [1] = (Chunk.delta ⟨0, 0⟩ [1] 1, true) :=
  C3_amended_delta_unconditional ctxC3 stC3 [1] ⟨0, 0⟩ [1] (by decide) (by decide)

/-! ## Claim C4 — unmatched prefix on a fingerprint hit -/

/-- C4 (code_bug evidence): on a fingerprint hit with
`len(buff) = 2*chunkSize` exactly, the guard
`len(buff) > chunkSize && len(buff) < chunkSize*2` (repo.go:556) is
false and the unmatched prefix is never emitted.  With `chunkSize = 2`,
a fingerprint index holding the hash of `[3,4]` (a previous version's
chunk), and input `[1,2,3,4]`, the hit happens at a full buffer: the
recipe is just the Stored reference and the prefix `[1,2]` is lost, so
the restored stream is `[3,4]`. -/
theorem C4_full_buffer_hit_drops_prefix :
    (matchStream ctx2 1 stC4 [1, 2, 3, 4]).map (fun r => r.chunks) =
        some [Chunk.stored ⟨0, 0⟩] ∧
      (matchStream ctx2 1 stC4 [1, 2, 3, 4]).map
          (fun r => restoreStream ctx2 r.st r.chunks) = some [3, 4] ∧
      ([3, 4] : List ℕ) ≠ [1, 2, 3, 4] := by
  exact ⟨by decide, by decide, by decide⟩

/-! ## Claim C5 — similarity search vote maximisation -/

/-- C5 (code_bug evidence): `findSimilarChunk` does not return the
candidate with the maximal vote count.  The `max` variable of
repo.go:444 is never reassigned, so `count > max` always holds and the
last candidate iterated wins.  Here candidate `(0,0)` appears under
both super-features of the query (2 votes) and `(0,1)` under one
(1 vote), yet `(0,1)` — iterated last — is returned. -/
theorem C5_returns_low_vote_candidate :
    findSimilarChunk ctxC5 stC5 [9] = some ⟨0, 1⟩ ∧
      specVoteCount ctxC5 stC5 [9] ⟨0, 0⟩ = 2 ∧
      specVoteCount ctxC5 stC5 [9] ⟨0, 1⟩ = 1 ∧
      (⟨0, 1⟩ : ChunkId) ≠ ⟨0, 0⟩ := by
  exact ⟨by decide, by decide, by decide, by decide⟩

/-! ## Claim C6 — fingerprint map conflict resolution -/

/-- C6 (counterexample): the fingerprint index does not keep the
first-observed chunk on a collision.  Loading two versions whose single
records share fingerprint 5 leaves `(1,0)` — the second-observed id —
in the map, not the first-observed `(0,0)`: Go's `m[k] = v`
overwrites. -/
theorem C6_first_observed_loses :
    assocFind (loadHashes emptyState [[⟨5, [9]⟩], [⟨5, [9]⟩]]).fingerprints 5 =
        some ⟨1, 0⟩ ∧
      (⟨1, 0⟩ : ChunkId) ≠ ⟨0, 0⟩ := by
  exact ⟨by decide, by decide⟩

/-- C6 (amended): each fingerprint maps to exactly one id, and on a
collision the id of the most recently observed chunk is retained —
both `hashChunk` (repo.go:417) and `loadHashes` (repo.go:378) overwrite
the binding for the fingerprint they insert. -/
theorem C6_amended_last_observed_wins (ctx : MatcherCtx) (st st' : RepoState)
    (id : ChunkId) (content : List ℕ) (i j : ℕ) (h : ChunkHashes) :
    assocFind ((hashChunk ctx st id content).2).fingerprints (ctx.hashFn content) =
        some id ∧
      assocFind (loadHashesRecord st' i j h).fingerprints h.Fp = some ⟨i, j⟩ := by
  constructor
  · simp only [hashChunk]
    exact assocFind_assocInsert_self _ _ _
  · simp only [loadHashesRecord]
    exact assocFind_assocInsert_self _ _ _

/-! ## Claim C8 — sketch size -/

/-- C8 (confirmed): sketching a chunk of length exactly `chunkSize` with
the repository parameters `(chunkSize=8192, wSize=32, sfCount=3,
fCount=4)` yields exactly 3 super-features, for every rolling hash and
every chunk content; `sketchChunk` is a pure function of the chunk
bytes and the hash (polynomial), so the result is deterministic. -/
theorem C8_sketch_three_superfeatures (hashF : List ℕ → ℕ) (chunk : List ℕ)
    (h : chunk.length = 8192) :
    (sketchChunk hashF 8192 32 3 4 chunk).length = 3 := by
  simp [sketchChunk, featureSize, h]

/-- C8 (witness): the all-zero 8192-byte chunk has a 3-super-feature
sketch. -/
theorem C8_sketch_three_superfeatures_witness :
    (List.replicate 8192 (0 : ℕ)).length = 8192 ∧
      (sketchChunk (fun _ => 0) 8192 32 3 4 (List.replicate 8192 0)).length = 3 :=
  ⟨List.length_replicate 8192 0,
    C8_sketch_three_superfeatures (fun _ => 0) (List.replicate 8192 0)
      (List.length_replicate 8192 0)⟩

/-! ## Claim C7 — hashes reload equals re-hashing -/

/-- C7 (confirmed): (i) every `matchStream` run submits a store queue
whose `j`-th item is the chunk with dense identifier `(version, j)`
together with the fingerprint and sketch of its own content; (ii) the
storage worker writes exactly these records to the version's hashes
file, in queue order, so the `N`-th framed record of version `V` holds
the hashes of chunk `(V, N)`; (iii) therefore running `loadHashes` over
all version files on a freshly constructed engine yields exactly the
fingerprint and sketch maps obtained by re-hashing every stored chunk
with `hashChunk`, in version order. -/
theorem C7_hashes_reload_eq_rehash (ctx : MatcherCtx) :
    (∀ (v : ℕ) (st : RepoState) (input : List ℕ) (res : MatchResult),
        matchStream ctx v st input = some res →
        res.queue.length = res.last ∧ queueOkB ctx v 0 res.queue = true) ∧
      (∀ (writeOk : ChunkData → Bool) (q : List ChunkData),
        (storageWorker writeOk q).hashesFile = q.map (fun d => d.hashes)) ∧
      (∀ (writeOk : ChunkData → Bool) (qs : List (List ChunkData)),
        (∀ v (h : v < qs.length), queueOkB ctx v 0 (qs.get ⟨v, h⟩) = true) →
        loadHashes emptyState
            (qs.map (fun q => (storageWorker writeOk q).hashesFile)) =
          hashChunksAll ctx emptyState
            ((qs.map (fun q => q.map (fun d => (d.id, d.content)))).flatten)) := by
  refine ⟨matchStream_queue_wf ctx, storageWorker_hashesFile, ?_⟩
  intro writeOk qs h
  have hmap : qs.map (fun q => (storageWorker writeOk q).hashesFile) =
      qs.map (fun q => q.map (fun d => d.hashes)) := by
    simp only [storageWorker_hashesFile]
  rw [hmap]
  refine loadHashesFrom_eq_rehash ctx qs emptyState 0 ?_
  intro v hv
  simpa using h v hv

/-- C7 (witness): for the queue produced by committing
`[1,1,2,2,3,3,1,1]` with `ctx2` to a fresh repository, reloading the
hashes file equals re-hashing the two stored chunks. -/
theorem C7_hashes_reload_eq_rehash_witness :
    loadHashes emptyState
        (qsW.map (fun q => (storageWorker (fun _ => true) q).hashesFile)) =
      hashChunksAll ctx2 emptyState
        ((qsW.map (fun q => q.map (fun d => (d.id, d.content)))).flatten) :=
  (C7_hashes_reload_eq_rehash ctx2).2.2 (fun _ => true) qsW (fun v h => by
    have hv : v = 0 := by
      have : v < 1 := by simpa [qsW] using h
      omega
    subst hv
    rw [show qsW.get ⟨0, h⟩ =
      [⟨⟨11, []⟩, [1, 1], ⟨0, 0⟩⟩, ⟨⟨52, []⟩, [2, 2], ⟨0, 1⟩⟩] from rfl]
    decide)

/-! ## Claim C9 — Temp chunk lengths -/

/-- C9 (counterexample): committing an empty stream produces a recipe
holding a single Temp chunk of length 0 (`io.ReadFull` returns
`(0, io.EOF)` and repo.go:541 appends `buff[:0]`), violating the claimed
lower bound of 1. -/
theorem C9_empty_stream_zero_length_temp :
    matchStream ctx2 0 emptyState [] = some ⟨[Chunk.temp []], emptyState, 0, []⟩ ∧
      Chunk.temp [] ∈ [Chunk.temp ([] : List ℕ)] ∧
      ¬(1 ≤ ([] : List ℕ).length) := by
  exact ⟨by decide, by decide, by decide⟩

/-- C9 (amended): every Temp chunk in a recipe returned by `matchStream`
has byte length strictly less than `2*chunkSize`, and length at least 1
provided the input stream is non-empty (an empty stream yields a single
empty Temp chunk).  Held-back `prev` chunks are always exactly
`chunkSize` bytes and are never emitted as Temp chunks; merged chunks
are discarded unless delta-encoded. -/
theorem C9_amended_recipe_temp_bounds (ctx : MatcherCtx) (version : ℕ)
    (st : RepoState) (input : List ℕ) (res : MatchResult)
    (hc : 0 < ctx.chunkSize)
    (hrun : matchStream ctx version st input = some res)
    (hne : input ≠ []) :
    ∀ b, Chunk.temp b ∈ res.chunks → 1 ≤ b.length ∧ b.length < 2 * ctx.chunkSize := by
  unfold matchStream at hrun
  by_cases hlen : ctx.chunkSize ≤ input.length
  · rw [if_pos hlen] at hrun
    refine TempOk_matchLoop ctx version (input.length + 1) _ _ _ _ _ _ _ _ hc ?_ ?_
      ?_ (TempOk_nil ctx) hrun
    · rw [List.length_take]
      omega
    · rw [List.length_take]
      omega
    · intro p hp'
      cases hp'
  · rw [if_neg hlen] at hrun
    by_cases h0 : input.length = 0
    · exact absurd (List.length_eq_zero.mp h0) hne
    · rw [if_neg h0] at hrun
      cases hrun

/-- C9 (witness): matching `[5,6,7]` with `chunkSize = 2` stores one
chunk and leaves the tail Temp chunk `[7]`, whose length satisfies the
amended bounds. -/
theorem C9_amended_recipe_temp_bounds_witness :
    1 ≤ ([7] : List ℕ).length ∧ ([7] : List ℕ).length < 2 * ctx2.chunkSize :=
  C9_amended_recipe_temp_bounds ctx2 0 emptyState [5, 6, 7] resC9w (by decide)
    (by decide) (by decide) [7] (by decide)

/-! ## Claim C10 — storage worker ordering and failure handling -/

theorem storageWorker_storedIds (writeOk : ChunkData → Bool) (queue : List ChunkData) :
    (storageWorker writeOk queue).storedIds =
      (queue.filter writeOk).map (fun d => d.id) := by
  induction queue with
  | nil => rfl
  | cons d rest ih =>
    by_cases h : writeOk d = true <;> simp [storageWorker, h, ih, List.filter]

theorem storageWorker_failedIds (writeOk : ChunkData → Bool) (queue : List ChunkData) :
    (storageWorker writeOk queue).failedIds =
      (queue.filter (fun d => !writeOk d)).map (fun d => d.id) := by
  induction queue with
  | nil => rfl
  | cons d rest ih =>
    by_cases h : writeOk d = true <;> simp [storageWorker, h, ih, List.filter]

/-- C10 (confirmed): the storage worker appends the hashes record of
every queue item to the hashes file — in queue order and regardless of
whether the payload write succeeds — and a `StoreChunkContent` failure
is only logged: the worker keeps draining the queue, the failed item's
record stays in the hashes file, and its payload is not persisted. -/
theorem C10_worker_record_precedes_payload (writeOk : ChunkData → Bool)
    (queue : List ChunkData) :
    (storageWorker writeOk queue).hashesFile = queue.map (fun d => d.hashes) ∧
      (storageWorker writeOk queue).storedIds =
        (queue.filter writeOk).map (fun d => d.id) ∧
      (storageWorker writeOk queue).failedIds =
        (queue.filter (fun d => !writeOk d)).map (fun d => d.id) ∧
      ∀ d ∈ queue, writeOk d = false →
        d.hashes ∈ (storageWorker writeOk queue).hashesFile ∧
          d.id ∈ (storageWorker writeOk queue).failedIds := by
  refine ⟨storageWorker_hashesFile writeOk queue,
    storageWorker_storedIds writeOk queue,
    storageWorker_failedIds writeOk queue, ?_⟩
  intro d hd hfail
  constructor
  · rw [storageWorker_hashesFile]
    exact List.mem_map_of_mem _ hd
  · rw [storageWorker_failedIds]
    refine List.mem_map_of_mem _ ?_
    rw [List.mem_filter]
    exact ⟨hd, by simp [hfail]⟩

/-- C10 (witness): a one-element queue whose payload write fails keeps
its hashes record in the file and its id among the failed ids. -/
theorem C10_worker_record_precedes_payload_witness :
    dW.hashes ∈ (storageWorker (fun _ => false) [dW]).hashesFile ∧
      dW.id ∈ (storageWorker (fun _ => false) [dW]).failedIds :=
  (C10_worker_record_precedes_payload (fun _ => false) [dW]).2.2.2 dW
    (by decide) (by decide)

end DnaBackup
